import Mathlib

/-!
Verification of the slash-command resolver and discoverer of
`codex-rs/tui/src/custom_slash_command.rs`.

Strings are modelled as explicit character lists (`Str`), Rust paths as the
raw strings they wrap, and the Unix filesystem as functions from (normalized)
paths to optional contents.  The functions `expand_custom_command` and
`discover_custom_commands` below are line-by-line shallow embeddings of the
Rust functions of the same names; every helper definition names the Rust
operation it embeds.
-/

set_option maxHeartbeats 1000000

namespace Codex

/-- Characters of a Rust `String`/`str`, as an explicit list. -/
abbrev Str := List Char

/-- The string constant `"project"`. -/
def projectStr : Str := ['p', 'r', 'o', 'j', 'e', 'c', 't']

/-- The string constant `"user"`. -/
def userStr : Str := ['u', 's', 'e', 'r']

/-- The fixed relative segment `".codex/commands"` joined onto a scope's base
directory (line 57 and line 60 of the source). -/
def codexCommandsStr : Str :=
  ['.', 'c', 'o', 'd', 'e', 'x', '/', 'c', 'o', 'm', 'm', 'a', 'n', 'd', 's']

/-- The extension suffix `".md"`. -/
def mdSuffix : Str := ['.', 'm', 'd']

/-- The extension `"md"` (without the dot), compared against
`path.extension()` in `gather`. -/
def mdStr : Str := ['m', 'd']

/-- The placeholder `"$ARGUMENTS"` substituted by the resolver (line 78). -/
def argPat : Str := ['$', 'A', 'R', 'G', 'U', 'M', 'E', 'N', 'T', 'S']

/-- The escaped-separator token `"__"` of command names (line 66). -/
def undPat : Str := ['_', '_']

/-- Rust `char::is_whitespace`, restricted to the ASCII whitespace characters;
none of the claims involves the further Unicode white-space code points. -/
def isWhite (c : Char) : Bool :=
  decide (c = ' ' ∨ c = '\t' ∨ c = '\n' ∨ c = '\r')

/-- Leading-whitespace removal, the left half of Rust `str::trim`. -/
def trimLeftStr (s : Str) : Str := s.dropWhile isWhite

/-- Trailing-whitespace removal, the right half of Rust `str::trim`. -/
def trimRightStr (s : Str) : Str := (s.reverse.dropWhile isWhite).reverse

/-- Rust `str::trim` (line 34): remove whitespace from both ends. -/
def trimStr (s : Str) : Str := trimLeftStr (trimRightStr s)

/-- Decidable list prefix test, used for Rust `str::starts_with` and as the
component-wise core of `Path::starts_with`. -/
def isPreL {α : Type} [DecidableEq α] : List α → List α → Bool
  | [], _ => true
  | _ :: _, [] => false
  | a :: as, b :: bs => if a = b then isPreL as bs else false

/-- Split a string at the first occurrence of a character: `some (before,
after)` when the character occurs, `none` otherwise.  This is the common core
of Rust `str::splitn(2, c)` (line 42) and `str::find(c)` (line 46). -/
def splitFirst (c : Char) : Str → Option (Str × Str)
  | [] => none
  | x :: xs =>
    if x = c then some ([], xs)
    else (splitFirst c xs).map (fun p => (x :: p.1, p.2))

/-- Substring occurrence test (true iff `pat` occurs contiguously in the
string), used to state pattern-freeness of pieces of a template. -/
def containsSub (pat : Str) : Str → Bool
  | [] => isPreL pat []
  | x :: xs => isPreL pat (x :: xs) || containsSub pat xs

/-- Interleave a separator between a list of pieces (no trailing separator). -/
def joinWith (sep : Str) : List Str → Str
  | [] => []
  | [p] => p
  | p :: ps => p ++ sep ++ joinWith sep ps

/-- Worker for `substArgs`; the fuel argument is kept at least the length of
the string argument and exists only to make the recursion structural. -/
def substArgsF (args : Str) : Nat → Str → Str
  | _, [] => []
  | 0, s => s
  | Nat.succ fuel, c :: rest =>
    if isPreL argPat (c :: rest) then args ++ substArgsF args fuel (rest.drop 9)
    else c :: substArgsF args fuel rest

/-- Rust `str::replace("$ARGUMENTS", args)` (line 78): scan left to right,
replacing each non-overlapping occurrence of the literal pattern by `args`;
replacement text is never rescanned. -/
def substArgs (args s : Str) : Str := substArgsF args s.length s

/-- Worker for `undToSep`; the fuel argument is kept at least the length of
the string argument and exists only to make the recursion structural. -/
def undToSepF : Nat → Str → Str
  | _, [] => []
  | 0, s => s
  | Nat.succ fuel, c :: rest =>
    if isPreL undPat (c :: rest) then '/' :: undToSepF fuel (rest.drop 1)
    else c :: undToSepF fuel rest

/-- Rust `str::replace("__", MAIN_SEPARATOR_STR)` (line 66) on Unix, where the
separator is `'/'`: scan left to right, replacing each non-overlapping
occurrence of `"__"` by `'/'`. -/
def undToSep (s : Str) : Str := undToSepF s.length s

/-- Rust `str::replace(MAIN_SEPARATOR, "__")` (line 107) on Unix: replace
every `'/'` by `"__"`. -/
def sepToUnd : Str → Str
  | [] => []
  | c :: rest => if c = '/' then '_' :: '_' :: sepToUnd rest else c :: sepToUnd rest

/-- Worker for `trimRevMd`; the fuel argument is kept at least the length of
the string argument and exists only to make the recursion structural. -/
def trimRevMdF : Nat → Str → Str
  | 0, s => s
  | Nat.succ fuel, s =>
    if isPreL ['d', 'm', '.'] s then trimRevMdF fuel (s.drop 3)
    else s

/-- Reversed-side worker for `trim_end_matches(".md")`: repeatedly strip a
leading reversed `".md"` (that is, `"dm."`). -/
def trimRevMd (s : Str) : Str := trimRevMdF s.length s

/-- Rust `str::trim_end_matches(".md")` (line 106): repeatedly remove the
suffix `".md"` while it is present. -/
def trimEndMd (s : Str) : Str := (trimRevMd s.reverse).reverse

/-- Rust `u8/char::to_ascii_lowercase`: map `'A'`–`'Z'` down by 32, leave
every other character (including non-ASCII letters) unchanged. -/
def asciiLowerChar (c : Char) : Char :=
  if 'A' ≤ c ∧ c ≤ 'Z' then Char.ofNat (c.toNat + 32) else c

/-- Rust `str::make_ascii_lowercase` (line 108), as a pure function. -/
def asciiLowerStr (s : Str) : Str := s.map asciiLowerChar

/-- Split a path string at every `'/'`; empty segments are kept here and
dropped by `components` below, mirroring how Rust `Path::components`
normalizes repeated separators away. -/
def splitSep : Str → List Str
  | [] => [[]]
  | c :: rest =>
    if c = '/' then [] :: splitSep rest
    else
      match splitSep rest with
      | [] => [[c]]
      | x :: xs => (c :: x) :: xs

/-- A component in the sense of Rust `std::path::Component` (Unix): the root
directory, `.`, `..`, or a normal segment. -/
inductive Comp where
  | rootDir : Comp
  | curDir : Comp
  | parentDir : Comp
  | normal : Str → Comp
deriving DecidableEq

/-- Classify one non-empty path segment. -/
def segComp (t : Str) : Comp :=
  if t = ['.'] then Comp.curDir
  else if t = ['.', '.'] then Comp.parentDir
  else Comp.normal t

/-- Rust `Path::components` on Unix: drop empty segments (repeated
separators), classify `"."`/`".."`, keep `..` components, and drop `.`
components except a leading one of a relative path.  An absolute path gains a
leading root-directory component. -/
def components (s : Str) : List Comp :=
  let cs := ((splitSep s).filter (fun t => !t.isEmpty)).map segComp
  if isPreL ['/'] s then
    Comp.rootDir :: cs.filter (fun c => decide (c ≠ Comp.curDir))
  else
    match cs with
    | Comp.curDir :: rest => Comp.curDir :: rest.filter (fun c => decide (c ≠ Comp.curDir))
    | _ => cs.filter (fun c => decide (c ≠ Comp.curDir))

/-- Rust `Path::starts_with` (line 70): component-wise, purely lexical prefix
test; `..` components are compared as components and never resolved. -/
def pathStartsWith (p base : Str) : Bool :=
  isPreL (components base) (components p)

/-- Rust `Path::join` (lines 57, 60, 67) on Unix: an absolute argument
replaces the path; otherwise the argument is appended, inserting a `'/'`
unless the base is empty or already ends with one. -/
def pathJoin (root rel : Str) : Str :=
  if isPreL ['/'] rel then rel
  else if root = [] then rel
  else if root.getLast? = some '/' then root ++ rel
  else root ++ '/' :: rel

/-- Worker for `resolvePath`: interpret the components after the root against
a stack of traversed segment names, the way the operating system resolves a
path (`..` pops one level and is a no-op at the root; `.` is skipped). -/
def goNorm (acc : List Str) : List Comp → Option (List Str)
  | [] => some acc.reverse
  | Comp.curDir :: r => goNorm acc r
  | Comp.parentDir :: r =>
    match acc with
    | [] => goNorm [] r
    | _ :: t => goNorm t r
  | Comp.normal s :: r => goNorm (s :: acc) r
  | Comp.rootDir :: _ => none

/-- Operating-system resolution of an absolute path string to the list of
directory-entry names it denotes, with `..` actually resolved — this is what
`fs::read_to_string` (line 75) hands to the kernel, as opposed to the purely
lexical `Path::starts_with` check of line 70.  Relative paths are not
resolved by the model. -/
def resolvePath (p : Str) : Option (List Str) :=
  match components p with
  | Comp.rootDir :: rest => goNorm [] rest
  | _ => none

/-- A filesystem for reading: maps a normalized absolute path (list of
segment names) to the text contents of the file there, when that file exists
and is valid UTF-8 text. -/
def FS := (List Str → Option Str)

/-- Rust `fs::read_to_string(path).ok()` (line 75): resolve the path and look
it up; every failure (missing file, unreadable, non-text) is `none`. -/
def readFile (fs : FS) (p : Str) : Option Str :=
  match resolvePath p with
  | some segs => fs segs
  | none => none

/-- The process environment seen by the module: the optional `HOME` variable
(line 59). -/
structure Env where home : Option Str

/-- Lines 34–50 of `expand_custom_command`: trim, require the `'/'` trigger,
split off the first token at the first space (arguments default to empty),
and split the token at the first `':'` (scope defaults to `"project"`). -/
def parseInvocation (input : Str) : Option (Str × Str × Str) :=
  let t := trimStr input
  if isPreL ['/'] t then
    let rest := t.drop 1
    let ft_args : Str × Str :=
      match splitFirst ' ' rest with
      | some p => p
      | none => (rest, [])
    let sc_cmd : Str × Str :=
      match splitFirst ':' ft_args.1 with
      | some p => p
      | none => (projectStr, ft_args.1)
    some (sc_cmd.1, sc_cmd.2, ft_args.2)
  else none

/-- Lines 53–63: map the scope token to its root directory, failing on an
unknown scope or on `user` without a `HOME` value. -/
def scopeRoot (scope : Str) (cwd : Str) (env : Env) : Option Str :=
  if scope = projectStr then some (pathJoin cwd codexCommandsStr)
  else if scope = userStr then
    match env.home with
    | some h => some (pathJoin h codexCommandsStr)
    | none => none
  else none

/-- Lines 66–67: replace `"__"` by the separator, append `".md"`, and join
onto the scope root. -/
def candidatePath (cmd : Str) (root : Str) : Str :=
  pathJoin root (undToSep cmd ++ mdSuffix)

/-- Shallow embedding of `expand_custom_command` (lines 33–81), with the
current directory, environment and filesystem passed explicitly. -/
def expand_custom_command (input : Str) (cwd : Str) (env : Env) (fs : FS) : Option Str :=
  match parseInvocation input with
  | none => none
  | some (scope, cmd, args) =>
    match scopeRoot scope cwd env with
    | none => none
    | some root =>
      let fp := candidatePath cmd root
      if pathStartsWith fp root then
        match readFile fs fp with
        | none => none
        | some contents => some (substArgs args contents)
      else none

/-- The first token of an invocation (the scope-and-name part before the
first space, after the trigger), when the trimmed input starts with `'/'`. -/
def firstTok (input : Str) : Option Str :=
  let t := trimStr input
  if isPreL ['/'] t then
    some (match splitFirst ' ' (t.drop 1) with
          | some p => p.1
          | none => t.drop 1)
  else none

/-- Build the invocation string `/<scope>:<name> <args>`. -/
def mkInput (scope name args : Str) : Str :=
  '/' :: (scope ++ ':' :: (name ++ ' ' :: args))

/-- An operating-system file name: either valid UTF-8 (carrying its text) or
not (carrying an identifying tag, and whether its bytes end in `".md"` so
that the extension comparison of line 101 can still succeed on it). -/
inductive OsName where
  | valid : Str → OsName
  | invalid : Nat → Bool → OsName
deriving DecidableEq

mutual
/-- A directory tree as seen by `gather`: a regular file, or a directory with
a readability flag (false when `read_dir` fails on it, line 96). -/
inductive FsObj where
  | file : FsObj
  | dir : Bool → EntryList → FsObj
/-- The entries of one directory; `eerr` is an entry whose read failed and
which `entries.flatten()` skips (line 97). -/
inductive EntryList where
  | enil : EntryList
  | eok : OsName → FsObj → EntryList → EntryList
  | eerr : EntryList → EntryList
end

/-- Rust `Path::extension` on a file name: the part after the last `'.'`,
unless there is no `'.'` or nothing precedes the last `'.'` (a leading-dot
name with no other dot has no extension). -/
def rustExtension (name : Str) : Option Str :=
  match splitFirst '.' name.reverse with
  | none => none
  | some (a, b) => if b = [] then none else some a.reverse

/-- The test `path.extension().map(|ext| ext == "md").unwrap_or(false)` of
line 101; an invalid name carries the answer directly. -/
def isMdName : OsName → Bool
  | OsName.valid s => decide (rustExtension s = some mdStr)
  | OsName.invalid _ b => b

/-- Rust `OsStr::to_str`: the text of a valid name, `none` otherwise. -/
def nameStr : OsName → Option Str
  | OsName.valid s => some s
  | OsName.invalid _ _ => none

/-- Rust `Path::to_str` on a relative path assembled from entry names
(line 104): succeeds iff every component is valid UTF-8, producing the
components joined by `'/'`. -/
def relToStr : List OsName → Option Str
  | [] => some []
  | [n] => nameStr n
  | n :: rest =>
    match nameStr n, relToStr rest with
    | some s, some t => some (s ++ '/' :: t)
    | _, _ => none

/-- Lines 105–108: the command name derived from a relative path string —
strip `".md"` suffixes, replace the separator by `"__"`, lowercase the ASCII
letters. -/
def mkCmdName (rel : Str) : Str :=
  asciiLowerStr (sepToUnd (trimEndMd rel))

/-- Line 109, `format!("{scope}:{cmd}")`. -/
def emitName (scope rel : Str) : Str :=
  scope ++ ':' :: mkCmdName rel

/-- Rust `Path::is_dir` (line 99) on the modelled objects. -/
def isDirB : FsObj → Bool
  | FsObj.file => false
  | FsObj.dir _ _ => true

mutual
/-- The traversal of `gather` (lines 94–115) from one object: a file or an
unreadable directory contributes nothing; a readable directory's entries are
processed.  The source walks with an explicit stack, so it visits nested
directories in a different order; the emitted entries are the same. -/
def gatherObj (scope : Str) (pfx : List OsName) : FsObj → List Str
  | FsObj.file => []
  | FsObj.dir false _ => []
  | FsObj.dir true es => gatherEntries scope pfx es
/-- Per-entry processing of lines 97–112: an unreadable entry is skipped, a
directory is descended into, and a file is emitted when its extension is
`"md"` and its relative path converts to UTF-8. -/
def gatherEntries (scope : Str) (pfx : List OsName) : EntryList → List Str
  | EntryList.enil => []
  | EntryList.eerr es => gatherEntries scope pfx es
  | EntryList.eok n t es =>
    (if isDirB t then gatherObj scope (pfx ++ [n]) t
     else if isMdName n then
       match relToStr (pfx ++ [n]) with
       | some rel => [emitName scope rel]
       | none => []
     else []) ++ gatherEntries scope pfx es
end

/-- Lines 88–91 of `gather`: a missing root (`none`) contributes nothing. -/
def gather (scope : Str) (root : Option FsObj) : List Str :=
  match root with
  | none => []
  | some t => gatherObj scope [] t

/-- Shallow embedding of `discover_custom_commands` (lines 87–133), with the
current directory, environment, and the directory forest passed explicitly
(`fsT` maps a root path string to the object there, if any). -/
def discover_custom_commands (cwd : Option Str) (env : Env)
    (fsT : Str → Option FsObj) : List Str :=
  (match cwd with
   | some c => gather projectStr (fsT (pathJoin c codexCommandsStr))
   | none => []) ++
  (match env.home with
   | some h => gather userStr (fsT (pathJoin h codexCommandsStr))
   | none => [])

mutual
/-- Remove the unreadable entries from a tree (used to state that discovery
skips them silently). -/
def pruneErr : FsObj → FsObj
  | FsObj.file => FsObj.file
  | FsObj.dir b es => FsObj.dir b (pruneErrE es)
/-- Remove the unreadable entries from an entry list. -/
def pruneErrE : EntryList → EntryList
  | EntryList.enil => EntryList.enil
  | EntryList.eerr es => pruneErrE es
  | EntryList.eok n t es => EntryList.eok n (pruneErr t) (pruneErrE es)
end

mutual
/-- The tree `t` holds, along the readable-directory path `p`, a regular file
whose name passes the `"md"` extension test (exactly the files whose entries
the traversal emits, validity of the path aside). -/
def hasMd : FsObj → List OsName → Bool
  | FsObj.file, _ => false
  | FsObj.dir false _, _ => false
  | FsObj.dir true es, p => hasMdE es p
/-- Entry-list side of `hasMd`. -/
def hasMdE : EntryList → List OsName → Bool
  | EntryList.enil, _ => false
  | EntryList.eerr es, p => hasMdE es p
  | EntryList.eok n t es, p =>
    (match p with
     | [] => false
     | [m] => if n = m then !isDirB t && isMdName n else false
     | m :: restp => if n = m then hasMd t restp else false)
    || hasMdE es p
end

/-- Whether a name is valid UTF-8. -/
def isValidName : OsName → Bool
  | OsName.valid _ => true
  | OsName.invalid _ _ => false

/-- Whether every name of a relative path is valid UTF-8. -/
def allValid (l : List OsName) : Bool := l.all isValidName

/-- The text of a name (defaulting to empty for invalid ones; only ever used
beneath `allValid`). -/
def nameStrD : OsName → Str
  | OsName.valid s => s
  | OsName.invalid _ _ => []

/-- The path string of a relative path of names, joined by `'/'`. -/
def namesToStr : List OsName → Str
  | [] => []
  | [n] => nameStrD n
  | n :: rest => nameStrD n ++ '/' :: namesToStr rest

/-- Modelled from the spec: full (not ASCII-only) lowercasing, as asserted by
the sentence "lowercasing the entire result (all characters, not only ASCII
ones)".  On the Latin-1 letter block the Unicode lowercase mapping adds 32,
exactly as for ASCII; that fragment suffices for the claims. -/
def specLowerChar (c : Char) : Char :=
  if 'A' ≤ c ∧ c ≤ 'Z' then Char.ofNat (c.toNat + 32)
  else if 'À' ≤ c ∧ c ≤ 'Þ' ∧ c ≠ '×' then Char.ofNat (c.toNat + 32)
  else c

/-- Modelled from the spec: stripping "the single trailing `.md` extension",
as opposed to the repeated stripping done by `trim_end_matches`. -/
def specStripSingleMd (s : Str) : Str :=
  if isPreL mdSuffix.reverse s.reverse then s.take (s.length - 3) else s

/-- Modelled from the spec (claim C4's formula): replace every separator by
`"__"`, strip the single trailing `".md"`, and lowercase all characters. -/
def specCmdName (rel : Str) : Str :=
  (sepToUnd (specStripSingleMd rel)).map specLowerChar

/-- Worker for `components`: the non-empty segments of a path string,
classified. -/
def rawComps (s : Str) : List Comp :=
  ((splitSep s).filter (fun t => !t.isEmpty)).map segComp

/-- Worker for `components`: the treatment of the classified segments of a
relative path (a leading `.` is kept, all other `.` components dropped). -/
def compsTail (cs : List Comp) : List Comp :=
  match cs with
  | Comp.curDir :: rest => Comp.curDir :: rest.filter (fun c => decide (c ≠ Comp.curDir))
  | _ => cs.filter (fun c => decide (c ≠ Comp.curDir))

/-! Concrete inputs used by the claim witnesses and counterexamples. -/

def c2Input : Str := ['/', 'f', 'i', 'x', ' ', 'm', 'i', 's', 's', 'i', 'n', 'g', ' ', 't', 'e', 's', 't', 's']

def c2Cwd : Str := ['/', 'r']

def c2Cmd : Str := ['f', 'i', 'x']

def c2Args : Str := ['m', 'i', 's', 's', 'i', 'n', 'g', ' ', 't', 'e', 's', 't', 's']

def c2Root : Str := ['/', 'r', '/', '.', 'c', 'o', 'd', 'e', 'x', '/', 'c', 'o', 'm', 'm', 'a', 'n', 'd', 's']

def c2Contents : Str :=
  ['F', 'i', 'x', 'i', 'n', 'g', ' ', '$', 'A', 'R', 'G', 'U', 'M', 'E', 'N', 'T', 'S', ' ', 'n', 'o', 'w', '!']

def c2Pieces : List Str := [['F', 'i', 'x', 'i', 'n', 'g', ' '], [' ', 'n', 'o', 'w', '!']]

def c2Fs : FS := fun p =>
  if p = [['r'], ['.', 'c', 'o', 'd', 'e', 'x'], ['c', 'o', 'm', 'm', 'a', 'n', 'd', 's'], ['f', 'i', 'x', '.', 'm', 'd']]
  then some c2Contents else none


def c1Input : Str := ['/', '.', '.', '_', '_', 's', 'e', 'c', 'r', 'e', 't']

def c1Cwd : Str := ['/', 'r']

def c1Cmd : Str := ['.', '.', '_', '_', 's', 'e', 'c', 'r', 'e', 't']

def c1Root : Str := ['/', 'r', '/', '.', 'c', 'o', 'd', 'e', 'x', '/', 'c', 'o', 'm', 'm', 'a', 'n', 'd', 's']

def c1RootSegs : List Str := [['r'], ['.', 'c', 'o', 'd', 'e', 'x'], ['c', 'o', 'm', 'm', 'a', 'n', 'd', 's']]

def c1EscapeSegs : List Str := [['r'], ['.', 'c', 'o', 'd', 'e', 'x'], ['s', 'e', 'c', 'r', 'e', 't', '.', 'm', 'd']]

def c1Secret : Str := ['S', 'E', 'C', 'R', 'E', 'T']

def c1Fs : FS := fun p => if p = c1EscapeSegs then some c1Secret else none

def c5Cwd : Str := ['/', 'r']

def c5Contents : Str := ['h', 'i']

def c5Fs : FS := fun p =>
  if p = [['r'], ['.', 'c', 'o', 'd', 'e', 'x'], ['c', 'o', 'm', 'm', 'a', 'n', 'd', 's'], ['.', 'm', 'd']]
  then some c5Contents else none


def c4Name : Str := ['Ä', '.', 'm', 'd', '.', 'm', 'd']

def c4Tree : FsObj :=
  FsObj.dir true (EntryList.eok (OsName.valid c4Name) FsObj.file EntryList.enil)

def c10Root : Str := ['/', 'r', '/', '.', 'c', 'o', 'd', 'e', 'x', '/', 'c', 'o', 'm', 'm', 'a', 'n', 'd', 's']

def c10Tree : FsObj :=
  FsObj.dir true (EntryList.eok (OsName.valid ['a', '.', 'm', 'd']) FsObj.file EntryList.enil)

def c10FsT : Str → Option FsObj := fun p => if p = c10Root then some c10Tree else none


def c3Tree : FsObj :=
  FsObj.dir true (EntryList.eok (OsName.valid ['A'])
    (FsObj.dir true (EntryList.eok (OsName.valid ['b', '.', 'm', 'd']) FsObj.file
      EntryList.enil))
    EntryList.enil)

def c3Root : Str := ['/', 'r', '/', '.', 'c', 'o', 'd', 'e', 'x', '/', 'c', 'o', 'm', 'm', 'a', 'n', 'd', 's']

def c3wTree : FsObj :=
  FsObj.dir true (EntryList.eok (OsName.valid ['x'])
    (FsObj.dir true (EntryList.eok (OsName.valid ['y', '.', 'm', 'd']) FsObj.file
      EntryList.enil))
    EntryList.enil)

/-! Generic lemmas about the list-level string operations. -/

theorem isPreL_append_self {α : Type} [DecidableEq α] (l m : List α) :
    isPreL l (l ++ m) = true := by
  induction l with
  | nil => rfl
  | cons a as ih => simp [isPreL, ih]

theorem isPreL_iff {α : Type} [DecidableEq α] (p s : List α) :
    isPreL p s = true ↔ ∃ u, s = p ++ u := by
  induction p generalizing s with
  | nil => simp [isPreL]
  | cons a as ih =>
    cases s with
    | nil =>
      constructor
      · intro h; simp [isPreL] at h
      · rintro ⟨u, hu⟩; simp at hu
    | cons b bs =>
      constructor
      · intro h
        simp only [isPreL] at h
        by_cases hab : a = b
        · subst hab
          rw [if_pos rfl] at h
          obtain ⟨u, hu⟩ := (ih bs).mp h
          exact ⟨u, by simp [hu]⟩
        · rw [if_neg hab] at h; simp at h
      · rintro ⟨u, hu⟩
        rw [List.cons_append] at hu
        injection hu with h1 h2
        subst h1
        simp only [isPreL, if_pos rfl]
        exact (ih bs).mpr ⟨u, h2⟩

theorem splitFirst_eq_none (c : Char) (s : Str) :
    splitFirst c s = none ↔ c ∉ s := by
  induction s with
  | nil => simp [splitFirst]
  | cons x xs ih =>
    simp only [splitFirst, List.mem_cons]
    by_cases h : x = c
    · subst h; simp
    · rw [if_neg h]
      constructor
      · intro hmap
        have hnone : splitFirst c xs = none := by
          cases hs : splitFirst c xs with
          | none => rfl
          | some q => rw [hs] at hmap; simp at hmap
        intro hor
        rcases hor with h1 | h2
        · exact h h1.symm
        · exact (ih.mp hnone) h2
      · intro hnot
        have hcx : c ∉ xs := fun hc => hnot (Or.inr hc)
        rw [ih.mpr hcx]
        rfl

theorem splitFirst_none_of_not_mem (c : Char) (s : Str) (h : c ∉ s) :
    splitFirst c s = none := (splitFirst_eq_none c s).mpr h

theorem splitFirst_eq_some (c : Char) (s a b : Str)
    (h : splitFirst c s = some (a, b)) : s = a ++ c :: b ∧ c ∉ a := by
  induction s generalizing a b with
  | nil => simp [splitFirst] at h
  | cons x xs ih =>
    simp only [splitFirst] at h
    by_cases hx : x = c
    · rw [if_pos hx] at h
      simp only [Option.some.injEq, Prod.mk.injEq] at h
      obtain ⟨h1, h2⟩ := h
      subst hx
      constructor
      · rw [← h1, ← h2]; rfl
      · rw [← h1]; simp
    · rw [if_neg hx] at h
      cases hs : splitFirst c xs with
      | none => rw [hs] at h; simp at h
      | some q =>
        rw [hs] at h
        simp only [Option.map_some', Option.some.injEq, Prod.mk.injEq] at h
        obtain ⟨ha, hb⟩ := h
        obtain ⟨hq1, hq2⟩ := ih q.1 q.2 (by rw [hs])
        subst hb
        constructor
        · rw [← ha]; rw [List.cons_append]; rw [← hq1]
        · rw [← ha]
          intro hmem
          rcases List.mem_cons.mp hmem with hh | hh
          · exact hx hh.symm
          · exact hq2 hh

theorem splitFirst_at_sep (c : Char) (p s : Str) (h : c ∉ p) :
    splitFirst c (p ++ c :: s) = some (p, s) := by
  induction p with
  | nil => simp [splitFirst]
  | cons x xs ih =>
    have hx : ¬ x = c := fun hh => h (by simp [hh])
    have hxs : c ∉ xs := fun hh => h (by simp [hh])
    rw [List.cons_append]
    simp only [splitFirst, if_neg hx, ih hxs]
    rfl

theorem splitFirst_append (c : Char) (p s : Str) (h : c ∉ p) :
    splitFirst c (p ++ s) =
      (splitFirst c s).map (fun q => (p ++ q.1, q.2)) := by
  cases hs : splitFirst c s with
  | none =>
    have hmem : c ∉ p ++ s := by
      rw [List.mem_append]
      push_neg
      exact ⟨h, (splitFirst_eq_none c s).mp hs⟩
    rw [splitFirst_none_of_not_mem c _ hmem]
    rfl
  | some q =>
    obtain ⟨hq1, hq2⟩ := splitFirst_eq_some c s q.1 q.2 (by rw [hs])
    have hrw : p ++ s = (p ++ q.1) ++ c :: q.2 := by rw [hq1, List.append_assoc]
    have hcpq : c ∉ p ++ q.1 := by
      rw [List.mem_append]
      push_neg
      exact ⟨h, hq2⟩
    rw [hrw, splitFirst_at_sep c (p ++ q.1) q.2 hcpq]
    rfl

theorem trimRightStr_ext (s : Str) : ∃ u, s = trimRightStr s ++ u ∧ ∀ x ∈ u, isWhite x = true := by
  refine ⟨(s.reverse.takeWhile isWhite).reverse, ?_, ?_⟩
  · unfold trimRightStr
    rw [← List.reverse_append, List.takeWhile_append_dropWhile, List.reverse_reverse]
  · intro x hx
    exact List.mem_takeWhile_imp (List.mem_reverse.mp hx)

theorem trimRightStr_cons (c : Char) (s : Str) (h : isWhite c = false) :
    trimRightStr (c :: s) = c :: trimRightStr s := by
  unfold trimRightStr
  rw [List.reverse_cons]
  rcases hd : s.reverse.dropWhile isWhite with _ | ⟨y, ys⟩
  · rw [List.dropWhile_append]
    simp [hd, List.dropWhile_cons, h]
  · rw [List.dropWhile_append]
    simp [hd]

theorem trimStr_slash (s : Str) : trimStr ('/' :: s) = '/' :: trimRightStr s := by
  unfold trimStr
  rw [trimRightStr_cons '/' s (by decide)]
  unfold trimLeftStr
  rw [List.dropWhile_cons]
  simp [isWhite]

theorem isPreL_length {α : Type} [DecidableEq α] (p s : List α) (h : isPreL p s = true) :
    p.length ≤ s.length := by
  obtain ⟨u, rfl⟩ := (isPreL_iff p s).mp h
  simp

/-! Unfolding lemmas for the fuel-based scanners: any fuel at least the
length of the string computes the same result. -/

theorem substArgsF_fuel (args : Str) : ∀ (f : Nat) (s : Str), s.length ≤ f →
    substArgsF args f s = substArgs args s := by
  intro f
  induction f using Nat.strong_induction_on with
  | _ f ih =>
    intro s hs
    cases s with
    | nil => cases f <;> rfl
    | cons c rest =>
      cases f with
      | zero => simp at hs
      | succ f2 =>
        have hrest : rest.length ≤ f2 := by simp at hs; omega
        simp only [substArgs, List.length_cons, substArgsF]
        by_cases h : isPreL argPat (c :: rest) = true
        · rw [if_pos h, if_pos h]
          rw [ih f2 (by omega) (rest.drop 9) (by rw [List.length_drop]; omega)]
          rw [ih rest.length (by omega) (rest.drop 9) (by rw [List.length_drop]; omega)]
        · rw [if_neg h, if_neg h]
          rw [ih f2 (by omega) rest hrest]
          rw [ih rest.length (by omega) rest (Nat.le_refl _)]

theorem substArgs_cons (args : Str) (c : Char) (rest : Str) :
    substArgs args (c :: rest) =
      if isPreL argPat (c :: rest) = true then args ++ substArgs args (rest.drop 9)
      else c :: substArgs args rest := by
  have h0 : substArgs args (c :: rest) =
      if isPreL argPat (c :: rest) = true then args ++ substArgsF args rest.length (rest.drop 9)
      else c :: substArgsF args rest.length rest := rfl
  rw [h0, substArgsF_fuel args rest.length (rest.drop 9) (by rw [List.length_drop]; omega),
      substArgsF_fuel args rest.length rest (Nat.le_refl _)]

theorem undToSepF_fuel : ∀ (f : Nat) (s : Str), s.length ≤ f →
    undToSepF f s = undToSep s := by
  intro f
  induction f using Nat.strong_induction_on with
  | _ f ih =>
    intro s hs
    cases s with
    | nil => cases f <;> rfl
    | cons c rest =>
      cases f with
      | zero => simp at hs
      | succ f2 =>
        have hrest : rest.length ≤ f2 := by simp at hs; omega
        simp only [undToSep, List.length_cons, undToSepF]
        by_cases h : isPreL undPat (c :: rest) = true
        · rw [if_pos h, if_pos h]
          rw [ih f2 (by omega) (rest.drop 1) (by rw [List.length_drop]; omega)]
          rw [ih rest.length (by omega) (rest.drop 1) (by rw [List.length_drop]; omega)]
        · rw [if_neg h, if_neg h]
          rw [ih f2 (by omega) rest hrest]
          rw [ih rest.length (by omega) rest (Nat.le_refl _)]

theorem undToSep_cons (c : Char) (rest : Str) :
    undToSep (c :: rest) =
      if isPreL undPat (c :: rest) = true then '/' :: undToSep (rest.drop 1)
      else c :: undToSep rest := by
  have h0 : undToSep (c :: rest) =
      if isPreL undPat (c :: rest) = true then '/' :: undToSepF rest.length (rest.drop 1)
      else c :: undToSepF rest.length rest := rfl
  rw [h0, undToSepF_fuel rest.length (rest.drop 1) (by rw [List.length_drop]; omega),
      undToSepF_fuel rest.length rest (Nat.le_refl _)]

theorem trimRevMdF_fuel : ∀ (f : Nat) (s : Str), s.length ≤ f →
    trimRevMdF f s = trimRevMd s := by
  intro f
  induction f using Nat.strong_induction_on with
  | _ f ih =>
    intro s hs
    cases f with
    | zero =>
      have : s = [] := List.length_eq_zero.mp (Nat.le_zero.mp hs)
      subst this
      rfl
    | succ f2 =>
      cases s with
      | nil => rfl
      | cons c rest =>
        have hrest : rest.length ≤ f2 := by simp at hs; omega
        simp only [trimRevMd, List.length_cons, trimRevMdF]
        by_cases h : isPreL ['d', 'm', '.'] (c :: rest) = true
        · rw [if_pos h, if_pos h]
          rw [ih f2 (by omega) ((c :: rest).drop 3) (by
            rw [List.length_drop, List.length_cons]
            omega)]
          rw [ih rest.length (by omega) ((c :: rest).drop 3) (by
            rw [List.length_drop, List.length_cons]
            omega)]
        · rw [if_neg h, if_neg h]

theorem trimRevMd_unfold (s : Str) :
    trimRevMd s =
      if isPreL ['d', 'm', '.'] s = true then trimRevMd (s.drop 3) else s := by
  cases s with
  | nil => rfl
  | cons c rest =>
    have h0 : trimRevMd (c :: rest) =
        if isPreL ['d', 'm', '.'] (c :: rest) = true then trimRevMdF rest.length ((c :: rest).drop 3)
        else c :: rest := rfl
    rw [h0]
    by_cases h : isPreL ['d', 'm', '.'] (c :: rest) = true
    · rw [if_pos h, if_pos h]
      exact trimRevMdF_fuel rest.length ((c :: rest).drop 3) (by
        rw [List.length_drop, List.length_cons]
        omega)
    · rw [if_neg h, if_neg h]

/-! The placeholder substitution replaces exactly the occurrences of
`"$ARGUMENTS"`: pattern-free text is copied verbatim; the pattern cannot
start inside pattern-free text (the pattern has no border); the replacement
text is never rescanned. -/

theorem isPreL_containsSub (pat s : Str) (h : isPreL pat s = true) :
    containsSub pat s = true := by
  cases s with
  | nil => simpa [containsSub] using h
  | cons x xs => simp [containsSub, h]

theorem substArgs_free (args s : Str) (h : containsSub argPat s = false) :
    substArgs args s = s := by
  induction s with
  | nil => rfl
  | cons c rest ih =>
    simp only [containsSub, Bool.or_eq_false_iff] at h
    rw [substArgs_cons, if_neg (by simp [h.1]), ih h.2]

theorem substArgs_at_pat (args t : Str) :
    substArgs args (argPat ++ t) = args ++ substArgs args t := by
  have hshape : argPat ++ t = '$' :: (['A', 'R', 'G', 'U', 'M', 'E', 'N', 'T', 'S'] ++ t) := rfl
  rw [hshape, substArgs_cons,
    if_pos (by exact isPreL_append_self argPat t)]
  have hdrop : (['A', 'R', 'G', 'U', 'M', 'E', 'N', 'T', 'S'] ++ t).drop 9 = t := rfl
  rw [hdrop]

theorem argPat_no_border :
    ∀ k, k < 10 → 1 ≤ k → ¬ (argPat.take (10 - k) = argPat.drop k) := by decide

theorem argPat_not_into (c : Char) (p2 t : Str)
    (hfree : containsSub argPat (c :: p2) = false) :
    isPreL argPat ((c :: p2) ++ (argPat ++ t)) = false := by
  cases hb : isPreL argPat ((c :: p2) ++ (argPat ++ t)) with
  | false => rfl
  | true =>
    exfalso
    obtain ⟨u, hu⟩ := (isPreL_iff _ _).mp hb
    by_cases hlen : 10 ≤ (c :: p2).length
    · have h1 : (c :: p2).take 10 ++ ((c :: p2).drop 10 ++ (argPat ++ t)) = argPat ++ u := by
        rw [← List.append_assoc, List.take_append_drop]
        exact hu
      have hlen10 : ((c :: p2).take 10).length = argPat.length := by
        rw [List.length_take]
        have h10 : argPat.length = 10 := rfl
        rw [h10]
        omega
      have h2 := (List.append_inj h1 hlen10).1
      have h3 : isPreL argPat (c :: p2) = true := by
        rw [isPreL_iff]
        exact ⟨(c :: p2).drop 10, by rw [← h2, List.take_append_drop]⟩
      rw [isPreL_containsSub _ _ h3] at hfree
      exact absurd hfree (by simp)
    · push_neg at hlen
      have hk1 : 1 ≤ (c :: p2).length := by simp
      have h1 : (c :: p2) ++ (argPat ++ t) = argPat.take (c :: p2).length ++
          (argPat.drop (c :: p2).length ++ u) := by
        rw [hu, ← List.append_assoc, List.take_append_drop]
      have hlk : (c :: p2).length = (argPat.take (c :: p2).length).length := by
        rw [List.length_take]
        have h10 : argPat.length = 10 := rfl
        rw [h10]
        omega
      have hinj := List.append_inj h1 hlk
      have h2 : argPat.take (10 - (c :: p2).length) ++
          (argPat.drop (10 - (c :: p2).length) ++ t) =
          argPat.drop (c :: p2).length ++ u := by
        rw [← List.append_assoc, List.take_append_drop]
        exact hinj.2
      have hl2 : (argPat.take (10 - (c :: p2).length)).length =
          (argPat.drop (c :: p2).length).length := by
        rw [List.length_take, List.length_drop]
        have h10 : argPat.length = 10 := rfl
        rw [h10]
        omega
      have hinj2 := List.append_inj h2 hl2
      exact argPat_no_border (c :: p2).length hlen hk1 hinj2.1

theorem substArgs_free_pat (args p t : Str) (h : containsSub argPat p = false) :
    substArgs args (p ++ (argPat ++ t)) = p ++ (args ++ substArgs args t) := by
  induction p with
  | nil => simpa using substArgs_at_pat args t
  | cons c p2 ih =>
    have hfree2 : containsSub argPat p2 = false := by
      simp only [containsSub, Bool.or_eq_false_iff] at h
      exact h.2
    have hnot := argPat_not_into c p2 t h
    have hnot2 : isPreL argPat (c :: (p2 ++ (argPat ++ t))) = false := by
      rw [← List.cons_append]
      exact hnot
    rw [List.cons_append, substArgs_cons, if_neg (by simp [hnot2])]
    rw [ih hfree2]
    rfl

theorem substArgs_join (args : Str) (pieces : List Str)
    (h : ∀ p ∈ pieces, containsSub argPat p = false) :
    substArgs args (joinWith argPat pieces) = joinWith args pieces := by
  induction pieces with
  | nil => rfl
  | cons p ps ih =>
    cases ps with
    | nil => simpa [joinWith] using substArgs_free args p (h p (by simp))
    | cons q qs =>
      have hp := h p (by simp)
      have hrest : ∀ r ∈ q :: qs, containsSub argPat r = false := by
        intro r hr
        exact h r (by simp [hr])
      have hstep : joinWith argPat (p :: q :: qs) =
          p ++ (argPat ++ joinWith argPat (q :: qs)) := by
        simp [joinWith, List.append_assoc]
      rw [hstep, substArgs_free_pat args p _ hp, ih hrest]
      simp [joinWith, List.append_assoc]

/-! Skipping of unreadable entries by the discovery traversal. -/

theorem isDirB_pruneErr (t : FsObj) : isDirB (pruneErr t) = isDirB t := by
  cases t <;> rfl

theorem pruneErr_gather_aux : ∀ N : Nat,
    (∀ (scope : Str) (pfx : List OsName) (t : FsObj), sizeOf t ≤ N →
      gatherObj scope pfx (pruneErr t) = gatherObj scope pfx t) ∧
    (∀ (scope : Str) (pfx : List OsName) (es : EntryList), sizeOf es ≤ N →
      gatherEntries scope pfx (pruneErrE es) = gatherEntries scope pfx es) := by
  intro N
  induction N with
  | zero =>
    constructor
    · intro scope pfx t h
      cases t <;> simp at h
    · intro scope pfx es h
      cases es <;> simp at h
  | succ N ih =>
    constructor
    · intro scope pfx t h
      cases t with
      | file => rfl
      | dir b es =>
        cases b with
        | false => rfl
        | true =>
          have hsz : sizeOf es ≤ N := by simp at h; omega
          exact ih.2 scope pfx es hsz
    · intro scope pfx es h
      cases es with
      | enil => rfl
      | eerr es2 =>
        have hsz : sizeOf es2 ≤ N := by simp at h; omega
        exact ih.2 scope pfx es2 hsz
      | eok n t es2 =>
        have hsz2 : sizeOf es2 ≤ N := by simp at h; omega
        have hszt : sizeOf t ≤ N := by simp at h; omega
        simp only [pruneErrE, gatherEntries, isDirB_pruneErr,
          ih.2 scope pfx es2 hsz2, ih.1 scope (pfx ++ [n]) t hszt]

theorem pruneErr_gatherObj (scope : Str) (pfx : List OsName) (t : FsObj) :
    gatherObj scope pfx (pruneErr t) = gatherObj scope pfx t :=
  (pruneErr_gather_aux (sizeOf t)).1 scope pfx t (Nat.le_refl _)

/-- Claim C2: for every command name with an existing, readable, valid-text
backing file under its scope root, resolve returns `some` of the file's
contents in which every literal occurrence of `$ARGUMENTS` is replaced by the
raw supplied argument string — no escaping, no rescanning of placeholder text
introduced by the arguments, every occurrence replaced — and all other text
unchanged.  The contents are presented as pattern-free pieces joined by the
placeholder (every string decomposes this way), and the result is exactly the
same pieces joined by the raw arguments. -/
theorem C2_placeholder_substitution (input cwd : Str) (env : Env) (fs : FS)
    (scope cmd args root contents : Str) (pieces : List Str)
    (hparse : parseInvocation input = some (scope, cmd, args))
    (hroot : scopeRoot scope cwd env = some root)
    (hcheck : pathStartsWith (candidatePath cmd root) root = true)
    (hread : readFile fs (candidatePath cmd root) = some contents)
    (hdec : contents = joinWith argPat pieces)
    (hfree : ∀ p ∈ pieces, containsSub argPat p = false) :
    expand_custom_command input cwd env fs = some (joinWith args pieces) := by
  unfold expand_custom_command
  simp only [hparse, hroot, hcheck, if_true, hread]
  rw [hdec, substArgs_join args pieces hfree]


/-- Witness for C2: the resolver expands `/fix missing tests` against a file
`fix.md` containing the placeholder, producing the substituted text. -/
theorem C2_placeholder_substitution_witness :
    expand_custom_command c2Input c2Cwd ⟨none⟩ c2Fs = some (joinWith c2Args c2Pieces) :=
  C2_placeholder_substitution c2Input c2Cwd ⟨none⟩ c2Fs projectStr c2Cmd c2Args c2Root
    c2Contents c2Pieces (by decide) (by decide) (by decide) (by decide) (by decide)
    (by decide)

/-- Claim C7: for every input whose trimmed form does not start with the
trigger character `/`, resolve returns no match, for every project root,
environment and filesystem state. -/
theorem C7_no_trigger (input cwd : Str) (env : Env) (fs : FS)
    (h : isPreL ['/'] (trimStr input) = false) :
    expand_custom_command input cwd env fs = none := by
  unfold expand_custom_command parseInvocation
  simp [h]

/-- Witness for C7 at the input `hi`. -/
theorem C7_no_trigger_witness :
    expand_custom_command ['h', 'i'] ['/', 'r'] ⟨none⟩ (fun _ => none) = none :=
  C7_no_trigger ['h', 'i'] ['/', 'r'] ⟨none⟩ (fun _ => none) (by decide)

/-- Claim C8: an invocation whose scope token is neither `project` nor `user`
resolves to no match, and a `user`-scope invocation without a home-directory
value resolves to no match; the filesystem is universally quantified and
never consulted (the result is `none` for every `fs`). -/
theorem C8_unknown_scope_or_missing_home (input cwd : Str) (env : Env) (fs : FS)
    (scope cmd args : Str)
    (hparse : parseInvocation input = some (scope, cmd, args))
    (hbad : (scope ≠ projectStr ∧ scope ≠ userStr) ∨ (scope = userStr ∧ env.home = none)) :
    expand_custom_command input cwd env fs = none := by
  have hroot : scopeRoot scope cwd env = none := by
    unfold scopeRoot
    rcases hbad with ⟨h1, h2⟩ | ⟨h1, h2⟩
    · rw [if_neg h1, if_neg h2]
    · subst h1
      rw [if_neg (show ¬ (userStr = projectStr) by decide), if_pos rfl, h2]
  unfold expand_custom_command
  simp only [hparse, hroot]

/-- Witness for C8 at the unknown scope `o` of the input `/o:x`. -/
theorem C8_unknown_scope_or_missing_home_witness :
    expand_custom_command ['/', 'o', ':', 'x'] ['/', 'r'] ⟨none⟩ (fun _ => none) = none :=
  C8_unknown_scope_or_missing_home ['/', 'o', ':', 'x'] ['/', 'r'] ⟨none⟩ (fun _ => none)
    ['o'] ['x'] [] (by decide) (Or.inl (by decide))

/-- Claim C9: discovery is total by construction (both `gather` and
`discover_custom_commands` return plain lists, with no error outcome in
their types); a missing scope root contributes zero entries; removing the
unreadable entries of the tree — anywhere in it — does not change the
output, so each such entry is silently skipped while the remaining entries
are still emitted (the last conjunct is the local skip step itself). -/
theorem C9_discovery_total :
    (∀ scope : Str, gather scope none = []) ∧
    (∀ fsT : Str → Option FsObj, discover_custom_commands none ⟨none⟩ fsT = []) ∧
    (∀ (scope : Str) (pfx : List OsName) (t : FsObj),
      gatherObj scope pfx (pruneErr t) = gatherObj scope pfx t) ∧
    (∀ (scope : Str) (pfx : List OsName) (es : EntryList),
      gatherEntries scope pfx (EntryList.eerr es) = gatherEntries scope pfx es) := by
  refine ⟨fun _ => rfl, fun _ => rfl, ?_, fun scope pfx es => rfl⟩
  intro scope pfx t
  exact pruneErr_gatherObj scope pfx t

/-! Lemmas about path splitting, components and joining. -/

theorem splitSep_ne_nil (s : Str) : splitSep s ≠ [] := by
  cases s with
  | nil => simp [splitSep]
  | cons c rest =>
    simp only [splitSep]
    by_cases h : c = '/'
    · simp [h]
    · rw [if_neg h]
      cases hs : splitSep rest with
      | nil => simp
      | cons x xs => simp

theorem splitSep_append (x y : Str) :
    splitSep (x ++ '/' :: y) = splitSep x ++ splitSep y := by
  induction x with
  | nil => simp [splitSep]
  | cons c x2 ih =>
    rw [List.cons_append]
    simp only [splitSep]
    by_cases h : c = '/'
    · rw [if_pos h, if_pos h, ih]
      rfl
    · rw [if_neg h, if_neg h, ih]
      cases hs : splitSep x2 with
      | nil => exact absurd hs (splitSep_ne_nil x2)
      | cons a as => rfl

theorem splitSep_no_sep (x : Str) (h : '/' ∉ x) : splitSep x = [x] := by
  induction x with
  | nil => rfl
  | cons c x2 ih =>
    have hc : ¬ c = '/' := fun hh => h (by simp [hh])
    have h2 : '/' ∉ x2 := fun hh => h (by simp [hh])
    simp only [splitSep, if_neg hc, ih h2]

theorem rawComps_append (x y : Str) :
    rawComps (x ++ '/' :: y) = rawComps x ++ rawComps y := by
  unfold rawComps
  rw [splitSep_append, List.filter_append, List.map_append]

theorem rawComps_single (x : Str) (hne : x ≠ []) (hsep : '/' ∉ x) (hdot : x ≠ ['.'])
    (hddot : x ≠ ['.', '.']) : rawComps x = [Comp.normal x] := by
  unfold rawComps
  rw [splitSep_no_sep x hsep]
  have hemp : x.isEmpty = false := by
    cases x with
    | nil => exact absurd rfl hne
    | cons a b => rfl
  simp [List.filter, hemp, segComp, hdot, hddot]

theorem components_eq (s : Str) :
    components s =
      if isPreL ['/'] s = true then
        Comp.rootDir :: (rawComps s).filter (fun c => decide (c ≠ Comp.curDir))
      else compsTail (rawComps s) := rfl

theorem compsTail_append (cs l : List Comp) (hl : ∀ x ∈ l, ¬ x = Comp.curDir) :
    compsTail (cs ++ l) = compsTail cs ++ l := by
  have hfl : l.filter (fun c => decide (c ≠ Comp.curDir)) = l :=
    List.filter_eq_self.mpr (fun a ha => by simpa using hl a ha)
  cases cs with
  | nil =>
    rw [List.nil_append]
    cases l with
    | nil => rfl
    | cons h t =>
      cases h with
      | curDir => exact absurd rfl (hl Comp.curDir (by simp))
      | rootDir =>
        show (Comp.rootDir :: t).filter (fun c => decide (c ≠ Comp.curDir)) = _
        rw [hfl]
        rfl
      | parentDir =>
        show (Comp.parentDir :: t).filter (fun c => decide (c ≠ Comp.curDir)) = _
        rw [hfl]
        rfl
      | normal s =>
        show (Comp.normal s :: t).filter (fun c => decide (c ≠ Comp.curDir)) = _
        rw [hfl]
        rfl
  | cons h cs2 =>
    cases h with
    | curDir =>
      show Comp.curDir :: (cs2 ++ l).filter (fun c => decide (c ≠ Comp.curDir)) =
        (Comp.curDir :: cs2.filter (fun c => decide (c ≠ Comp.curDir))) ++ l
      rw [List.filter_append, hfl]
      rfl
    | rootDir =>
      show ((Comp.rootDir :: cs2) ++ l).filter (fun c => decide (c ≠ Comp.curDir)) =
        (Comp.rootDir :: cs2).filter (fun c => decide (c ≠ Comp.curDir)) ++ l
      rw [List.filter_append, hfl]
    | parentDir =>
      show ((Comp.parentDir :: cs2) ++ l).filter (fun c => decide (c ≠ Comp.curDir)) =
        (Comp.parentDir :: cs2).filter (fun c => decide (c ≠ Comp.curDir)) ++ l
      rw [List.filter_append, hfl]
    | normal s =>
      show ((Comp.normal s :: cs2) ++ l).filter (fun c => decide (c ≠ Comp.curDir)) =
        (Comp.normal s :: cs2).filter (fun c => decide (c ≠ Comp.curDir)) ++ l
      rw [List.filter_append, hfl]

theorem isPreL_slash_append (c : Char) (r2 X : Str) :
    isPreL ['/'] ((c :: r2) ++ X) = isPreL ['/'] (c :: r2) := by
  rw [List.cons_append]
  simp only [isPreL]

theorem eq_dropLast_append_slash (root : Str) (hne : root ≠ [])
    (hlast : root.getLast? = some '/') : root = root.dropLast ++ ['/'] := by
  have h0 := List.dropLast_append_getLast hne
  have h1 : root.getLast hne = '/' := by
    have h2 := List.getLast?_eq_getLast root hne
    rw [h2] at hlast
    exact Option.some.inj hlast
  rw [h1] at h0
  exact h0.symm

theorem components_pathJoin (root rel : Str)
    (hrel : isPreL ['/'] rel = false)
    (hl : ∀ x ∈ rawComps rel, ¬ x = Comp.curDir) :
    components (pathJoin root rel) = components root ++ rawComps rel := by
  have hfl : (rawComps rel).filter (fun c => decide (c ≠ Comp.curDir)) = rawComps rel :=
    List.filter_eq_self.mpr (fun a ha => by simpa using hl a ha)
  unfold pathJoin
  rw [if_neg (by simp [hrel])]
  by_cases hroot : root = []
  · subst hroot
    rw [if_pos rfl]
    rw [components_eq, if_neg (by simp [hrel])]
    have h0 : components ([] : Str) = [] := rfl
    rw [h0, List.nil_append]
    have := compsTail_append [] (rawComps rel) hl
    simpa using this
  · rw [if_neg hroot]
    by_cases hslash : root.getLast? = some '/'
    · rw [if_pos hslash]
      obtain ⟨r0, hr0⟩ : ∃ r0, root = r0 ++ ['/'] :=
        ⟨root.dropLast, eq_dropLast_append_slash root hroot hslash⟩
      have hra : rawComps (root ++ rel) = rawComps root ++ rawComps rel := by
        rw [hr0]
        have e1 : (r0 ++ ['/']) ++ rel = r0 ++ '/' :: rel := by simp
        rw [e1, rawComps_append]
        have e2 : r0 ++ ['/'] = r0 ++ '/' :: ([] : Str) := rfl
        rw [e2, rawComps_append]
        have e3 : rawComps ([] : Str) = [] := rfl
        rw [e3, List.append_nil]
      have hflag : isPreL ['/'] (root ++ rel) = isPreL ['/'] root := by
        cases root with
        | nil => exact absurd rfl hroot
        | cons c r2 => exact isPreL_slash_append c r2 rel
      rw [components_eq (root ++ rel), components_eq root, hra, hflag]
      by_cases habs : isPreL ['/'] root = true
      · rw [if_pos habs, if_pos habs, List.filter_append, hfl]
        rfl
      · rw [if_neg habs, if_neg habs]
        exact compsTail_append (rawComps root) (rawComps rel) hl
    · rw [if_neg hslash]
      have hra : rawComps (root ++ '/' :: rel) = rawComps root ++ rawComps rel :=
        rawComps_append root rel
      have hflag : isPreL ['/'] (root ++ '/' :: rel) = isPreL ['/'] root := by
        cases root with
        | nil => exact absurd rfl hroot
        | cons c r2 => exact isPreL_slash_append c r2 ('/' :: rel)
      rw [components_eq (root ++ '/' :: rel), components_eq root, hra, hflag]
      by_cases habs : isPreL ['/'] root = true
      · rw [if_pos habs, if_pos habs, List.filter_append, hfl]
        rfl
      · rw [if_neg habs, if_neg habs]
        exact compsTail_append (rawComps root) (rawComps rel) hl

theorem pathStartsWith_pathJoin (root rel : Str)
    (hrel : isPreL ['/'] rel = false)
    (hl : ∀ x ∈ rawComps rel, ¬ x = Comp.curDir) :
    pathStartsWith (pathJoin root rel) root = true := by
  unfold pathStartsWith
  rw [components_pathJoin root rel hrel hl]
  exact isPreL_append_self _ _

/-- Claim C1 is right and the code is wrong (code bug): for the input
`/..__secret` with project root `/r`, the composed candidate path is
`/r/.codex/commands/../secret.md`, which lies outside the scope root — its
operating-system resolution is `/r/.codex/secret.md`, not an extension of the
root's `/r/.codex/commands` — yet the purely lexical `Path::starts_with`
check of line 70 accepts it (`..` is just another component), the file
outside the root is read, and its contents are returned.  The claim demands
`none` and no out-of-root read; the code's own comment (line 69, "Security:
ensure file path is within root") documents the same intent. -/
theorem C1_escape_code_bug :
    expand_custom_command c1Input c1Cwd ⟨none⟩ c1Fs = some c1Secret ∧
    pathStartsWith (candidatePath c1Cmd c1Root) c1Root = true ∧
    resolvePath (candidatePath c1Cmd c1Root) = some c1EscapeSegs ∧
    resolvePath c1Root = some c1RootSegs ∧
    isPreL c1RootSegs c1EscapeSegs = false := by
  refine ⟨by decide, by decide, by decide, by decide, by decide⟩

/-- Counterexample to claim C5 as stated: the claim promises no match for the
bare input `/` regardless of the filesystem, but with a file named `.md`
directly under the project commands root the empty command name composes the
candidate `<root>/.md` and resolution returns that file's contents. -/
theorem C5_counterexample :
    trimStr ['/'] = ['/'] ∧
    expand_custom_command ['/'] c5Cwd ⟨none⟩ c5Fs = some c5Contents := by
  refine ⟨by decide, by decide⟩

/-- Claim C5 as amended: for every input whose trimmed form is exactly `/` or
whose first token after the trigger is empty, the command name is empty and
the candidate path is `<project root>/.md`; resolution returns no match
provided no readable file exists there (rather than for every filesystem
state, as originally claimed). -/
theorem C5_empty_token_amended (input cwd : Str) (env : Env) (fs : FS)
    (h5 : trimStr input = ['/'] ∨ firstTok input = some [])
    (hnof : readFile fs (pathJoin (pathJoin cwd codexCommandsStr) mdSuffix) = none) :
    expand_custom_command input cwd env fs = none := by
  obtain ⟨args, hparse⟩ : ∃ args, parseInvocation input = some (projectStr, [], args) := by
    rcases h5 with h | h
    · refine ⟨[], ?_⟩
      unfold parseInvocation
      rw [h]
      rfl
    · unfold firstTok at h
      by_cases hpre : isPreL ['/'] (trimStr input) = true
      · rw [if_pos hpre] at h
        unfold parseInvocation
        rw [if_pos hpre]
        cases hsp : splitFirst ' ' ((trimStr input).drop 1) with
        | none =>
          rw [hsp] at h
          have hft : (trimStr input).drop 1 = [] := Option.some.inj h
          refine ⟨[], ?_⟩
          simp only [hsp, hft]
          rfl
        | some p =>
          rw [hsp] at h
          have hft : p.1 = [] := Option.some.inj h
          refine ⟨p.2, ?_⟩
          simp only [hsp, hft]
          rfl
      · rw [if_neg hpre] at h
        exact absurd h (by simp)
  have hroot : scopeRoot projectStr cwd env = some (pathJoin cwd codexCommandsStr) := by
    unfold scopeRoot
    rw [if_pos rfl]
  have hcand : candidatePath [] (pathJoin cwd codexCommandsStr) =
      pathJoin (pathJoin cwd codexCommandsStr) mdSuffix := rfl
  have hchk := pathStartsWith_pathJoin (pathJoin cwd codexCommandsStr) mdSuffix
    (by decide) (by decide)
  unfold expand_custom_command
  simp only [hparse, hroot, hcand, hchk, if_true, hnof]

/-- Witness for the amended C5: the bare input `/` over an empty filesystem
resolves to no match. -/
theorem C5_empty_token_amended_witness :
    expand_custom_command ['/'] ['/', 'r'] ⟨none⟩ (fun _ => none) = none :=
  C5_empty_token_amended ['/'] ['/', 'r'] ⟨none⟩ (fun _ => none)
    (Or.inl (by decide)) (by decide)

/-! Equivalence of the implicit and explicit project scope. -/

theorem trimRightStr_append (p X : Str) (c : Char) (hc : isWhite c = false) :
    trimRightStr ((p ++ [c]) ++ X) = (p ++ [c]) ++ trimRightStr X := by
  unfold trimRightStr
  have h1 : ((p ++ [c]) ++ X).reverse = X.reverse ++ (c :: p.reverse) := by simp
  rw [h1, List.dropWhile_append]
  cases hd : X.reverse.dropWhile isWhite with
  | nil =>
    simp only [List.isEmpty_nil, if_true]
    rw [List.dropWhile_cons, hc]
    simp
  | cons y ys =>
    simp only [List.isEmpty_cons, Bool.false_eq_true, if_false]
    simp

theorem parseInvocation_slash (tail : Str) :
    parseInvocation ('/' :: tail) =
      (let rest := trimRightStr tail
       let ft_args : Str × Str :=
         match splitFirst ' ' rest with
         | some p => p
         | none => (rest, [])
       let sc_cmd : Str × Str :=
         match splitFirst ':' ft_args.1 with
         | some p => p
         | none => (projectStr, ft_args.1)
       some (sc_cmd.1, sc_cmd.2, ft_args.2)) := by
  unfold parseInvocation
  rw [trimStr_slash]
  have hpre : isPreL ['/'] ('/' :: trimRightStr tail) = true := by simp [isPreL]
  rw [if_pos hpre]
  rfl

theorem pre_of_before_space : ∀ (t y ext token z : Str), ' ' ∉ t →
    (t ++ ' ' :: y) ++ ext = token ++ ' ' :: z → ∃ v, token = t ++ v := by
  intro t
  induction t with
  | nil =>
    intro y ext token z h1 h2
    exact ⟨token, rfl⟩
  | cons c t2 ih =>
    intro y ext token z h1 h2
    rw [List.cons_append, List.cons_append] at h2
    cases token with
    | nil =>
      rw [List.nil_append] at h2
      injection h2 with ha hb
      exact absurd (by simp [ha] : (' ' : Char) ∈ c :: t2) h1
    | cons d tok2 =>
      rw [List.cons_append] at h2
      injection h2 with ha hb
      obtain ⟨v, hv⟩ := ih y ext tok2 z (fun hm => h1 (by simp [hm])) hb
      exact ⟨v, by rw [List.cons_append, ha, hv]⟩

theorem pre_of_no_space : ∀ (rr ext token z : Str), ' ' ∉ rr →
    rr ++ ext = token ++ ' ' :: z → ∃ v, token = rr ++ v := by
  intro rr
  induction rr with
  | nil =>
    intro ext token z h1 h2
    exact ⟨token, rfl⟩
  | cons c r2 ih =>
    intro ext token z h1 h2
    rw [List.cons_append] at h2
    cases token with
    | nil =>
      rw [List.nil_append] at h2
      injection h2 with ha hb
      exact absurd (by simp [ha] : (' ' : Char) ∈ c :: r2) h1
    | cons d tok2 =>
      rw [List.cons_append] at h2
      injection h2 with ha hb
      obtain ⟨v, hv⟩ := ih ext tok2 z (fun hm => h1 (by simp [hm])) hb
      exact ⟨v, by rw [List.cons_append, ha, hv]⟩

/-- Claim C6: for every colon-free first token and every argument string,
project root, environment and filesystem state, resolving `/<token> <args>`
gives the same result as resolving `/project:<token> <args>`. -/
theorem C6_default_scope (token args cwd : Str) (env : Env) (fs : FS)
    (hcolon : ':' ∉ token) :
    expand_custom_command ('/' :: (token ++ ' ' :: args)) cwd env fs =
      expand_custom_command ('/' :: (projectStr ++ ':' :: (token ++ ' ' :: args))) cwd env fs := by
  suffices h : parseInvocation ('/' :: (token ++ ' ' :: args)) =
      parseInvocation ('/' :: (projectStr ++ ':' :: (token ++ ' ' :: args))) by
    unfold expand_custom_command
    rw [h]
  obtain ⟨u, hX, hw⟩ := trimRightStr_ext (token ++ ' ' :: args)
  have hsplit2 : projectStr ++ ':' :: (token ++ ' ' :: args) =
      (projectStr ++ [':']) ++ (token ++ ' ' :: args) := by simp
  have htrim2 : trimRightStr (projectStr ++ ':' :: (token ++ ' ' :: args)) =
      projectStr ++ ':' :: trimRightStr (token ++ ' ' :: args) := by
    rw [hsplit2, trimRightStr_append projectStr (token ++ ' ' :: args) ':' (by decide)]
    simp
  rw [parseInvocation_slash, parseInvocation_slash]
  simp only [htrim2]
  set r := trimRightStr (token ++ ' ' :: args) with hr
  have hpc : ' ' ∉ projectStr ++ [':'] := by decide
  have hassoc : projectStr ++ ':' :: r = (projectStr ++ [':']) ++ r := by simp
  cases hsp : splitFirst ' ' r with
  | some q =>
    have hq := splitFirst_eq_some ' ' r q.1 q.2 (by rw [hsp])
    have htok : ∃ v, token = q.1 ++ v := by
      refine pre_of_before_space q.1 q.2 u token args hq.2 ?_
      rw [← hq.1, ← hX]
    obtain ⟨v, hv⟩ := htok
    have hqc : ':' ∉ q.1 := fun hm => hcolon (by rw [hv]; exact List.mem_append_left v hm)
    have hsp2 : splitFirst ' ' (projectStr ++ ':' :: r) = some (projectStr ++ ':' :: q.1, q.2) := by
      rw [hassoc, splitFirst_append ' ' _ r hpc, hsp]
      simp
    have hc1 : splitFirst ':' q.1 = none := splitFirst_none_of_not_mem ':' q.1 hqc
    have hc2 : splitFirst ':' (projectStr ++ ':' :: q.1) = some (projectStr, q.1) :=
      splitFirst_at_sep ':' projectStr q.1 (by decide)
    simp only [hsp, hsp2, hc1, hc2]
  | none =>
    have hnr : ' ' ∉ r := (splitFirst_eq_none ' ' r).mp hsp
    have htok : ∃ v, token = r ++ v := by
      refine pre_of_no_space r u token args hnr ?_
      rw [← hX]
    obtain ⟨v, hv⟩ := htok
    have hrc : ':' ∉ r := fun hm => hcolon (by rw [hv]; exact List.mem_append_left v hm)
    have hsp2 : splitFirst ' ' (projectStr ++ ':' :: r) = none := by
      rw [hassoc]
      apply splitFirst_none_of_not_mem
      rw [List.mem_append]
      push_neg
      exact ⟨hpc, hnr⟩
    have hc1 : splitFirst ':' r = none := splitFirst_none_of_not_mem ':' r hrc
    have hc2 : splitFirst ':' (projectStr ++ ':' :: r) = some (projectStr, r) :=
      splitFirst_at_sep ':' projectStr r (by decide)
    simp only [hsp, hsp2, hc1, hc2]

/-- Witness for C6 at the token `fix` with arguments `a`, over an empty
filesystem. -/
theorem C6_default_scope_witness :
    expand_custom_command ('/' :: (['f', 'i', 'x'] ++ ' ' :: ['a'])) ['/', 'r'] ⟨none⟩
        (fun _ => none) =
      expand_custom_command ('/' :: (projectStr ++ ':' :: (['f', 'i', 'x'] ++ ' ' :: ['a'])))
        ['/', 'r'] ⟨none⟩ (fun _ => none) :=
  C6_default_scope ['f', 'i', 'x'] ['a'] ['/', 'r'] ⟨none⟩ (fun _ => none) (by decide)

/-! Characterization of the entries emitted by the discovery traversal. -/

theorem relToStr_of_allValid : ∀ l : List OsName, allValid l = true →
    relToStr l = some (namesToStr l) := by
  intro l
  induction l with
  | nil => intro h; rfl
  | cons n rest ih =>
    intro h
    simp only [allValid, List.all_cons, Bool.and_eq_true] at h
    cases rest with
    | nil =>
      cases n with
      | valid s => rfl
      | invalid a b => simp [isValidName] at h
    | cons m rest2 =>
      have hrest : allValid (m :: rest2) = true := h.2
      cases n with
      | valid s =>
        show (match nameStr (OsName.valid s), relToStr (m :: rest2) with
              | some s2, some t2 => some (s2 ++ '/' :: t2)
              | _, _ => none) = _
        rw [ih hrest]
        rfl
      | invalid a b => simp [isValidName] at h

theorem relToStr_allValid : ∀ (l : List OsName) (rel : Str), relToStr l = some rel →
    allValid l = true := by
  intro l
  induction l with
  | nil => intro rel h; rfl
  | cons n rest ih =>
    intro rel h
    cases rest with
    | nil =>
      cases n with
      | valid s => rfl
      | invalid a b => simp [relToStr, nameStr] at h
    | cons m rest2 =>
      cases n with
      | valid s =>
        simp only [allValid, List.all_cons, Bool.and_eq_true]
        refine ⟨rfl, ?_⟩
        cases hrec : relToStr (m :: rest2) with
        | none =>
          exfalso
          simp only [relToStr, nameStr, hrec] at h
          exact Option.noConfusion h
        | some t2 =>
          have := ih t2 hrec
          simpa [allValid] using this
      | invalid a b => simp [relToStr, nameStr] at h


theorem hasMdE_nil_aux : ∀ (N : Nat) (es : EntryList), sizeOf es ≤ N →
    hasMdE es [] = false := by
  intro N
  induction N with
  | zero =>
    intro es h
    cases es <;> simp at h
  | succ N ih =>
    intro es h
    cases es with
    | enil => rfl
    | eerr es2 =>
      have : sizeOf es2 ≤ N := by simp at h; omega
      exact ih es2 this
    | eok n t es2 =>
      have : sizeOf es2 ≤ N := by simp at h; omega
      simp only [hasMdE, ih es2 this, Bool.or_false]

theorem hasMdE_nil (es : EntryList) : hasMdE es [] = false :=
  hasMdE_nil_aux (sizeOf es) es (Nat.le_refl _)

theorem gather_of_hasMd_aux : ∀ N : Nat,
    (∀ (scope : Str) (pfx p : List OsName) (t : FsObj), sizeOf t ≤ N →
      hasMd t p = true → allValid (pfx ++ p) = true →
      emitName scope (namesToStr (pfx ++ p)) ∈ gatherObj scope pfx t) ∧
    (∀ (scope : Str) (pfx p : List OsName) (es : EntryList), sizeOf es ≤ N →
      hasMdE es p = true → allValid (pfx ++ p) = true →
      emitName scope (namesToStr (pfx ++ p)) ∈ gatherEntries scope pfx es) := by
  intro N
  induction N with
  | zero =>
    constructor
    · intro scope pfx p t h
      cases t <;> simp at h
    · intro scope pfx p es h
      cases es <;> simp at h
  | succ N ih =>
    constructor
    · intro scope pfx p t hsz hmd hval
      cases t with
      | file => simp [hasMd] at hmd
      | dir b es =>
        cases b with
        | false => simp [hasMd] at hmd
        | true =>
          have hsz2 : sizeOf es ≤ N := by simp at hsz; omega
          exact ih.2 scope pfx p es hsz2 hmd hval
    · intro scope pfx p es hsz hmd hval
      cases es with
      | enil => simp [hasMdE] at hmd
      | eerr es2 =>
        have hsz2 : sizeOf es2 ≤ N := by simp at hsz; omega
        exact ih.2 scope pfx p es2 hsz2 hmd hval
      | eok n t es2 =>
        have hsz2 : sizeOf es2 ≤ N := by simp at hsz; omega
        have hszt : sizeOf t ≤ N := by simp at hsz; omega
        simp only [hasMdE, Bool.or_eq_true] at hmd
        rcases hmd with hleft | hright
        · cases p with
          | nil => simp at hleft
          | cons m restp =>
            cases restp with
            | nil =>
              have hleft2 : (if n = m then !isDirB t && isMdName n else false) = true := hleft
              by_cases hnm : n = m
              · subst hnm
                rw [if_pos rfl, Bool.and_eq_true, Bool.not_eq_true'] at hleft2
                have hrel := relToStr_of_allValid (pfx ++ [n]) hval
                simp only [gatherEntries, hleft2.1, hleft2.2, hrel, Bool.false_eq_true,
                  if_false, if_true]
                exact List.mem_append_left _ (by simp)
              · rw [if_neg hnm] at hleft2
                simp at hleft2
            | cons r rs =>
              have hleft2 : (if n = m then hasMd t (r :: rs) else false) = true := hleft
              by_cases hnm : n = m
              · subst hnm
                rw [if_pos rfl] at hleft2
                cases t with
                | file => simp [hasMd] at hleft2
                | dir b es3 =>
                  have hval2 : allValid ((pfx ++ [n]) ++ (r :: rs)) = true := by
                    simpa [List.append_assoc] using hval
                  have hmem := ih.1 scope (pfx ++ [n]) (r :: rs) (FsObj.dir b es3) hszt
                    hleft2 hval2
                  have hmem2 : emitName scope (namesToStr (pfx ++ (n :: r :: rs))) ∈
                      gatherObj scope (pfx ++ [n]) (FsObj.dir b es3) := by
                    simpa [List.append_assoc] using hmem
                  simp only [gatherEntries, isDirB, if_true]
                  exact List.mem_append_left _ hmem2
              · rw [if_neg hnm] at hleft2
                simp at hleft2
        · have := ih.2 scope pfx p es2 hsz2 hright hval
          simp only [gatherEntries]
          exact List.mem_append_right _ this

theorem gather_of_hasMd (scope : Str) (pfx p : List OsName) (t : FsObj)
    (hmd : hasMd t p = true) (hval : allValid (pfx ++ p) = true) :
    emitName scope (namesToStr (pfx ++ p)) ∈ gatherObj scope pfx t :=
  (gather_of_hasMd_aux (sizeOf t)).1 scope pfx p t (Nat.le_refl _) hmd hval

theorem gather_mem_aux : ∀ N : Nat,
    (∀ (scope : Str) (pfx : List OsName) (t : FsObj) (e : Str), sizeOf t ≤ N →
      e ∈ gatherObj scope pfx t →
      ∃ p rel, hasMd t p = true ∧ relToStr (pfx ++ p) = some rel ∧ e = emitName scope rel) ∧
    (∀ (scope : Str) (pfx : List OsName) (es : EntryList) (e : Str), sizeOf es ≤ N →
      e ∈ gatherEntries scope pfx es →
      ∃ p rel, hasMdE es p = true ∧ relToStr (pfx ++ p) = some rel ∧ e = emitName scope rel) := by
  intro N
  induction N with
  | zero =>
    constructor
    · intro scope pfx t e h
      cases t <;> simp at h
    · intro scope pfx es e h
      cases es <;> simp at h
  | succ N ih =>
    constructor
    · intro scope pfx t e hsz he
      cases t with
      | file => simp [gatherObj] at he
      | dir b es =>
        cases b with
        | false => simp [gatherObj] at he
        | true =>
          have hsz2 : sizeOf es ≤ N := by simp at hsz; omega
          obtain ⟨p, rel, h1, h2, h3⟩ := ih.2 scope pfx es e hsz2 he
          exact ⟨p, rel, h1, h2, h3⟩
    · intro scope pfx es e hsz he
      cases es with
      | enil => simp [gatherEntries] at he
      | eerr es2 =>
        have hsz2 : sizeOf es2 ≤ N := by simp at hsz; omega
        obtain ⟨p, rel, h1, h2, h3⟩ := ih.2 scope pfx es2 e hsz2 he
        refine ⟨p, rel, ?_, h2, h3⟩
        simpa [hasMdE] using h1
      | eok n t es2 =>
        have hsz2 : sizeOf es2 ≤ N := by simp at hsz; omega
        have hszt : sizeOf t ≤ N := by simp at hsz; omega
        simp only [gatherEntries] at he
        rcases List.mem_append.mp he with hl | hr
        · cases ht : isDirB t with
          | true =>
            rw [ht, if_pos rfl] at hl
            obtain ⟨p, rel, h1, h2, h3⟩ := ih.1 scope (pfx ++ [n]) t e hszt hl
            refine ⟨n :: p, rel, ?_, ?_, h3⟩
            · have hpne : p ≠ [] := by
                intro hpn
                subst hpn
                cases t with
                | file => simp [isDirB] at ht
                | dir b3 es3 =>
                  cases b3 with
                  | false => simp [hasMd] at h1
                  | true =>
                    have := hasMdE_nil es3
                    simp [hasMd, this] at h1
              cases p with
              | nil => exact absurd rfl hpne
              | cons r rs =>
                simp only [hasMdE, Bool.or_eq_true]
                exact Or.inl (by simpa using h1)
            · have : pfx ++ n :: p = (pfx ++ [n]) ++ p := List.append_cons pfx n p
              rw [this]
              exact h2
          | false =>
            rw [ht, if_neg (by simp)] at hl
            cases hmd : isMdName n with
            | false => rw [hmd, if_neg (by simp)] at hl; simp at hl
            | true =>
              rw [hmd, if_pos rfl] at hl
              cases hrel : relToStr (pfx ++ [n]) with
              | none => rw [hrel] at hl; simp at hl
              | some rel =>
                rw [hrel] at hl
                have he2 : e = emitName scope rel := by simpa using hl
                refine ⟨[n], rel, ?_, hrel, he2⟩
                simp only [hasMdE, Bool.or_eq_true]
                exact Or.inl (by simp [ht, hmd])
        · obtain ⟨p, rel, h1, h2, h3⟩ := ih.2 scope pfx es2 e hsz2 hr
          refine ⟨p, rel, ?_, h2, h3⟩
          simp only [hasMdE, Bool.or_eq_true]
          exact Or.inr h1

theorem gather_mem (scope : Str) (pfx : List OsName) (t : FsObj) (e : Str)
    (he : e ∈ gatherObj scope pfx t) :
    ∃ p rel, hasMd t p = true ∧ relToStr (pfx ++ p) = some rel ∧ e = emitName scope rel :=
  (gather_mem_aux (sizeOf t)).1 scope pfx t e (Nat.le_refl _) he

/-- Counterexample to claim C4 as stated: for the discovered file `Ä.md.md`
the code derives the name `Ä` — `trim_end_matches(".md")` strips both `.md`
suffixes, not the single trailing one, and `make_ascii_lowercase` leaves the
non-ASCII letter `Ä` unchanged — whereas the claimed formula (strip the
single trailing `.md`, lowercase all characters) gives `ä.md`. -/
theorem C4_counterexample :
    gather projectStr (some c4Tree) = [projectStr ++ ':' :: mkCmdName c4Name] ∧
    mkCmdName c4Name = ['Ä'] ∧
    specCmdName c4Name = ['ä', '.', 'm', 'd'] ∧
    ¬ mkCmdName c4Name = specCmdName c4Name := by
  refine ⟨by decide, by decide, by decide, by decide⟩

/-- Claim C4 as amended: every discovered entry is derived from the relative
path of an actual markdown file of the tree (reached through readable
directories, with a UTF-8-representable relative path) by stripping all
trailing `.md` suffixes, replacing every path separator with `__`, and
lowercasing the ASCII letters only (non-ASCII characters are unchanged). -/
theorem C4_derived_name_amended (scope : Str) (t : FsObj) (e : Str)
    (he : e ∈ gatherObj scope [] t) :
    ∃ p rel, hasMd t p = true ∧ relToStr p = some rel ∧
      e = scope ++ ':' :: asciiLowerStr (sepToUnd (trimEndMd rel)) := by
  obtain ⟨p, rel, h1, h2, h3⟩ := gather_mem scope [] t e he
  rw [List.nil_append] at h2
  exact ⟨p, rel, h1, h2, h3⟩

/-- Witness for the amended C4 at the discovered entry of `Ä.md.md`. -/
theorem C4_derived_name_amended_witness :
    ∃ p rel, hasMd c4Tree p = true ∧ relToStr p = some rel ∧
      (projectStr ++ ':' :: mkCmdName c4Name) =
        projectStr ++ ':' :: asciiLowerStr (sepToUnd (trimEndMd rel)) :=
  C4_derived_name_amended projectStr c4Tree (projectStr ++ ':' :: mkCmdName c4Name)
    (by decide)

/-- Claim C10: discovery silently omits every `.md` file whose relative path
is not valid UTF-8 — each discovered entry arises from a file all of whose
relative-path components are valid UTF-8, so the discovered set covers only
files with UTF-8-representable relative paths, and no error is reported (the
return type has no error outcome). -/
theorem C10_utf8_only (cwd : Option Str) (env : Env) (fsT : Str → Option FsObj) (e : Str)
    (he : e ∈ discover_custom_commands cwd env fsT) :
    ∃ scope p rel, allValid p = true ∧ relToStr p = some rel ∧ e = emitName scope rel := by
  unfold discover_custom_commands at he
  rcases List.mem_append.mp he with h | h
  · cases cwd with
    | none => simp at h
    | some c =>
      unfold gather at h
      cases hft : fsT (pathJoin c codexCommandsStr) with
      | none => simp only [hft] at h; simp at h
      | some t =>
        simp only [hft] at h
        obtain ⟨p, rel, h1, h2, h3⟩ := gather_mem projectStr [] t e h
        rw [List.nil_append] at h2
        exact ⟨projectStr, p, rel, relToStr_allValid p rel h2, h2, h3⟩
  · cases henv : env.home with
    | none => simp only [henv] at h; simp at h
    | some hm =>
      simp only [henv] at h
      unfold gather at h
      cases hft : fsT (pathJoin hm codexCommandsStr) with
      | none => simp only [hft] at h; simp at h
      | some t =>
        simp only [hft] at h
        obtain ⟨p, rel, h1, h2, h3⟩ := gather_mem userStr [] t e h
        rw [List.nil_append] at h2
        exact ⟨userStr, p, rel, relToStr_allValid p rel h2, h2, h3⟩

/-- Witness for C10 at a one-file project tree. -/
theorem C10_utf8_only_witness :
    ∃ scope p rel, allValid p = true ∧ relToStr p = some rel ∧
      (projectStr ++ [':', 'a']) = emitName scope rel :=
  C10_utf8_only (some ['/', 'r']) ⟨none⟩ c10FsT (projectStr ++ [':', 'a']) (by decide)

/-! Lemmas connecting command names with relative paths (both directions of
the `__` escape). -/

theorem sepToUnd_append (x y : Str) : sepToUnd (x ++ y) = sepToUnd x ++ sepToUnd y := by
  induction x with
  | nil => rfl
  | cons c x2 ih =>
    rw [List.cons_append]
    simp only [sepToUnd]
    by_cases h : c = '/'
    · rw [if_pos h, if_pos h, ih]
      rfl
    · rw [if_neg h, if_neg h, ih]
      rfl

theorem sepToUnd_no_sep (x : Str) (h : '/' ∉ x) : sepToUnd x = x := by
  induction x with
  | nil => rfl
  | cons c x2 ih =>
    have hc : ¬ c = '/' := fun hh => h (by simp [hh])
    simp only [sepToUnd, if_neg hc, ih (fun hh => h (by simp [hh]))]

theorem undToSep_free (s : Str) (h : containsSub undPat s = false) : undToSep s = s := by
  induction s with
  | nil => rfl
  | cons c rest ih =>
    simp only [containsSub, Bool.or_eq_false_iff] at h
    rw [undToSep_cons, if_neg (by simp [h.1]), ih h.2]

theorem undToSep_mid (a b : Str) (ha : containsSub undPat a = false)
    (hlast : ¬ a.getLast? = some '_') (hb : containsSub undPat b = false) :
    undToSep (a ++ '_' :: '_' :: b) = a ++ '/' :: b := by
  induction a with
  | nil =>
    rw [List.nil_append, undToSep_cons,
      if_pos (show isPreL undPat ('_' :: '_' :: b) = true from isPreL_append_self undPat b)]
    have hdrop : (('_' :: b : Str)).drop 1 = b := rfl
    rw [hdrop, undToSep_free b hb]
    rfl
  | cons c a2 ih =>
    have hnp : isPreL undPat (c :: (a2 ++ '_' :: '_' :: b)) = false := by
      cases a2 with
      | nil =>
        have hc : ¬ c = '_' := by
          intro hh
          exact hlast (by rw [hh]; decide)
        simp only [List.nil_append, undPat, isPreL]
        rw [if_neg (fun hh : ('_' : Char) = c => hc hh.symm)]
      | cons d a3 =>
        by_cases hd : d = '_'
        · by_cases hc : c = '_'
          · exfalso
            subst hc
            subst hd
            simp [containsSub, undPat, isPreL] at ha
          · simp only [List.cons_append, undPat, isPreL]
            rw [if_neg (fun hh : ('_' : Char) = c => hc hh.symm)]
        · simp only [List.cons_append, undPat, isPreL]
          rw [if_neg (fun hh : ('_' : Char) = d => hd hh.symm)]
          simp
    have hfree2 : containsSub undPat a2 = false := by
      simp only [containsSub, Bool.or_eq_false_iff] at ha
      exact ha.2
    have hlast2 : ¬ a2.getLast? = some '_' := by
      cases a2 with
      | nil => simp
      | cons d a3 =>
        intro hh
        exact hlast (by rw [List.getLast?_cons_cons]; exact hh)
    rw [List.cons_append, undToSep_cons, if_neg (by simp [hnp]), ih hfree2 hlast2]
    rfl

theorem not_md_rev (a b : Str) (hb : b ≠ [])
    (h : isPreL ['d', 'm', '.'] b.reverse = false) :
    isPreL ['d', 'm', '.'] (b.reverse ++ '/' :: a.reverse) = false := by
  cases hbr : b.reverse with
  | nil =>
    exfalso
    exact hb (by simpa using congrArg List.reverse hbr)
  | cons c1 r1 =>
    cases r1 with
    | nil =>
      rw [List.cons_append, List.nil_append]
      simp only [isPreL]
      rw [if_neg (by decide : ¬ ('m' : Char) = '/')]
      simp
    | cons c2 r2 =>
      cases r2 with
      | nil =>
        rw [List.cons_append, List.cons_append, List.nil_append]
        simp only [isPreL]
        rw [if_neg (by decide : ¬ ('.' : Char) = '/')]
        simp
      | cons c3 r3 =>
        rw [hbr] at h
        rw [List.cons_append, List.cons_append, List.cons_append]
        simp only [isPreL] at h ⊢
        by_cases h1 : ('d' : Char) = c1
        · rw [if_pos h1] at h ⊢
          by_cases h2 : ('m' : Char) = c2
          · rw [if_pos h2] at h ⊢
            by_cases h3 : ('.' : Char) = c3
            · rw [if_pos h3] at h ⊢
              simp [isPreL] at h
            · rw [if_neg h3] at h ⊢
          · rw [if_neg h2]
        · rw [if_neg h1]

theorem trimEndMd_append (x : Str) (h : isPreL ['d', 'm', '.'] x.reverse = false) :
    trimEndMd (x ++ mdSuffix) = x := by
  unfold trimEndMd
  have h1 : (x ++ mdSuffix).reverse = 'd' :: 'm' :: '.' :: x.reverse := by
    simp [mdSuffix]
  rw [h1, trimRevMd_unfold,
    if_pos (show isPreL ['d', 'm', '.'] ('d' :: 'm' :: '.' :: x.reverse) = true from
      isPreL_append_self ['d', 'm', '.'] x.reverse)]
  have hdrop : (('d' :: 'm' :: '.' :: x.reverse : Str)).drop 3 = x.reverse := rfl
  rw [hdrop, trimRevMd_unfold, if_neg (by simp [h])]
  simp

theorem asciiLowerStr_append (x y : Str) :
    asciiLowerStr (x ++ y) = asciiLowerStr x ++ asciiLowerStr y := by
  unfold asciiLowerStr
  exact List.map_append asciiLowerChar x y

theorem mkCmdName_two_seg (a b : Str)
    (hb_ne : b ≠ []) (hb_md : isPreL ['d', 'm', '.'] b.reverse = false)
    (ha_sep : '/' ∉ a) (hb_sep : '/' ∉ b)
    (ha_low : asciiLowerStr a = a) (hb_low : asciiLowerStr b = b) :
    mkCmdName (a ++ '/' :: (b ++ mdSuffix)) = a ++ '_' :: '_' :: b := by
  unfold mkCmdName
  have h1 : a ++ '/' :: (b ++ mdSuffix) = (a ++ '/' :: b) ++ mdSuffix := by simp
  have h2 : (a ++ '/' :: b).reverse = b.reverse ++ '/' :: a.reverse := by simp
  rw [h1, trimEndMd_append (a ++ '/' :: b) (by rw [h2]; exact not_md_rev a b hb_ne hb_md)]
  have h3 : a ++ '/' :: b = a ++ (['/'] ++ b) := by simp
  rw [h3, sepToUnd_append a (['/'] ++ b), sepToUnd_append ['/'] b,
    sepToUnd_no_sep a ha_sep, sepToUnd_no_sep b hb_sep]
  have h4 : sepToUnd ['/'] = ['_', '_'] := rfl
  rw [h4, asciiLowerStr_append, asciiLowerStr_append, ha_low, hb_low]
  have h5 : asciiLowerStr ['_', '_'] = ['_', '_'] := rfl
  rw [h5]
  simp

theorem parseInvocation_mkInput (scope name args : Str)
    (htrim : trimStr (mkInput scope name args) = mkInput scope name args)
    (hsc_sp : ' ' ∉ scope) (hsc_col : ':' ∉ scope) (hname_sp : ' ' ∉ name) :
    parseInvocation (mkInput scope name args) = some (scope, name, args) := by
  unfold parseInvocation
  rw [htrim]
  unfold mkInput
  rw [if_pos (by simp [isPreL])]
  simp only [List.drop_succ_cons, List.drop_zero]
  have hshape : scope ++ ':' :: (name ++ ' ' :: args) = (scope ++ ':' :: name) ++ ' ' :: args := by
    simp
  have hsp : splitFirst ' ' (scope ++ ':' :: (name ++ ' ' :: args)) =
      some (scope ++ ':' :: name, args) := by
    rw [hshape]
    apply splitFirst_at_sep
    intro hm
    rcases List.mem_append.mp hm with h | h
    · exact hsc_sp h
    · rcases List.mem_cons.mp h with h | h
      · exact absurd h (by decide)
      · exact hname_sp h
  have hcol : splitFirst ':' (scope ++ ':' :: name) = some (scope, name) :=
    splitFirst_at_sep ':' scope name hsc_col
  simp only [hsp, hcol]

/-- Counterexample to claim C3 as stated: for the file at relative path
`A/b.md` (an uppercase directory segment), discovery emits `project:a__b` —
the name is ASCII-lowercased — and not the claimed `project:A__b`; resolving
the emitted name composes `<root>/a/b.md`, which is a different path from
the file's `<root>/A/b.md`, so the round trip reads a different file. -/
theorem C3_counterexample :
    gather projectStr (some c3Tree) = [projectStr ++ [':', 'a', '_', '_', 'b']] ∧
    ¬ (projectStr ++ [':', 'A', '_', '_', 'b']) ∈ gather projectStr (some c3Tree) ∧
    resolvePath (candidatePath ['a', '_', '_', 'b'] c3Root) =
      some [['r'], ['.', 'c', 'o', 'd', 'e', 'x'], ['c', 'o', 'm', 'm', 'a', 'n', 'd', 's'],
        ['a'], ['b', '.', 'm', 'd']] ∧
    ¬ resolvePath (candidatePath ['a', '_', '_', 'b'] c3Root) =
      some [['r'], ['.', 'c', 'o', 'd', 'e', 'x'], ['c', 'o', 'm', 'm', 'a', 'n', 'd', 's'],
        ['A'], ['b', '.', 'm', 'd']] := by
  refine ⟨by decide, by decide, by decide, by decide⟩

/-- Claim C3 as amended: the round trip holds for a file at relative path
`a/b.md` whose segments are untouched by the name derivation — `a` and `b`
are non-empty, contain no separator, no space and no `__`, are fixed by
ASCII lowercasing, `a` is not `.` or `..` and does not end in `_`, and `b`
does not end in `.md`.  Then (i) discovery over any tree holding such a
readable markdown file at `[a, b.md]` emits exactly `<scope>:a__b`, and
(ii) resolving `/<scope>:a__b <args>` (for an argument string surviving the
trim) reads exactly the file at `<scope root>/a/b.md`, returning its
contents with the placeholder substituted. -/
theorem C3_roundtrip_amended (a b args scope root cwd : Str) (env : Env) (fs : FS)
    (t : FsObj)
    (hscope : scope = projectStr ∨ scope = userStr)
    (hroot : scopeRoot scope cwd env = some root)
    (ha_ne : a ≠ []) (ha_sep : '/' ∉ a) (ha_sp : ' ' ∉ a)
    (ha_und : containsSub undPat a = false) (ha_last : ¬ a.getLast? = some '_')
    (ha_low : asciiLowerStr a = a) (ha_dot : a ≠ ['.']) (ha_ddot : a ≠ ['.', '.'])
    (hb_ne : b ≠ []) (hb_sep : '/' ∉ b) (hb_sp : ' ' ∉ b)
    (hb_und : containsSub undPat b = false)
    (hb_low : asciiLowerStr b = b) (hb_md : isPreL ['d', 'm', '.'] b.reverse = false)
    (htrim : trimStr (mkInput scope (a ++ '_' :: '_' :: b) args) =
      mkInput scope (a ++ '_' :: '_' :: b) args) :
    (hasMd t [OsName.valid a, OsName.valid (b ++ mdSuffix)] = true →
      (scope ++ ':' :: (a ++ '_' :: '_' :: b)) ∈ gatherObj scope [] t) ∧
    expand_custom_command (mkInput scope (a ++ '_' :: '_' :: b) args) cwd env fs =
      Option.map (substArgs args) (readFile fs (pathJoin root (a ++ '/' :: (b ++ mdSuffix)))) := by
  constructor
  · intro hmd
    have hform : emitName scope
        (namesToStr ([] ++ [OsName.valid a, OsName.valid (b ++ mdSuffix)])) =
        scope ++ ':' :: (a ++ '_' :: '_' :: b) := by
      show scope ++ ':' :: mkCmdName (a ++ '/' :: (b ++ mdSuffix)) = _
      rw [mkCmdName_two_seg a b hb_ne hb_md ha_sep hb_sep ha_low hb_low]
    rw [← hform]
    exact gather_of_hasMd scope [] _ t hmd (by simp [allValid, isValidName])
  · have hname_sp : ' ' ∉ (a ++ '_' :: '_' :: b) := by
      intro hm
      rcases List.mem_append.mp hm with h | h
      · exact ha_sp h
      · rcases List.mem_cons.mp h with h | h
        · exact absurd h (by decide)
        · rcases List.mem_cons.mp h with h | h
          · exact absurd h (by decide)
          · exact hb_sp h
    have hsc_sp : ' ' ∉ scope := by
      rcases hscope with h | h <;> subst h <;> decide
    have hsc_col : ':' ∉ scope := by
      rcases hscope with h | h <;> subst h <;> decide
    have hparse := parseInvocation_mkInput scope (a ++ '_' :: '_' :: b) args htrim
      hsc_sp hsc_col hname_sp
    have hcand : candidatePath (a ++ '_' :: '_' :: b) root =
        pathJoin root (a ++ '/' :: (b ++ mdSuffix)) := by
      unfold candidatePath
      rw [undToSep_mid a b ha_und ha_last hb_und]
      have : (a ++ '/' :: b) ++ mdSuffix = a ++ '/' :: (b ++ mdSuffix) := by simp
      rw [this]
    have hbmd_ne : b ++ mdSuffix ≠ [] := by
      intro hh
      exact hb_ne (List.append_eq_nil.mp hh).1
    have hbmd_sep : '/' ∉ b ++ mdSuffix := by
      intro hm
      rcases List.mem_append.mp hm with h | h
      · exact hb_sep h
      · exact absurd h (by decide)
    have hbmd_dot : b ++ mdSuffix ≠ ['.'] := by
      intro hh
      have := congrArg List.length hh
      simp [mdSuffix] at this
    have hbmd_ddot : b ++ mdSuffix ≠ ['.', '.'] := by
      intro hh
      have := congrArg List.length hh
      simp [mdSuffix] at this
    have hrelflag : isPreL ['/'] (a ++ '/' :: (b ++ mdSuffix)) = false := by
      cases a with
      | nil => exact absurd rfl ha_ne
      | cons c a2 =>
        have hc : ¬ c = '/' := fun hh => ha_sep (by simp [hh])
        rw [List.cons_append]
        simp only [isPreL]
        rw [if_neg (fun hh : ('/' : Char) = c => hc hh.symm)]
    have hraw : rawComps (a ++ '/' :: (b ++ mdSuffix)) =
        [Comp.normal a, Comp.normal (b ++ mdSuffix)] := by
      rw [rawComps_append, rawComps_single a ha_ne ha_sep ha_dot ha_ddot,
        rawComps_single (b ++ mdSuffix) hbmd_ne hbmd_sep hbmd_dot hbmd_ddot]
      rfl
    have hchk : pathStartsWith (pathJoin root (a ++ '/' :: (b ++ mdSuffix))) root = true := by
      apply pathStartsWith_pathJoin root _ hrelflag
      rw [hraw]
      intro x hx
      rcases List.mem_cons.mp hx with h | h
      · subst h; simp
      · rcases List.mem_cons.mp h with h | h
        · subst h; simp
        · simp at h
    unfold expand_custom_command
    simp only [hparse, hroot, hcand, hchk, if_true]
    cases hread : readFile fs (pathJoin root (a ++ '/' :: (b ++ mdSuffix))) with
    | none => simp
    | some contents => simp

/-- Witness for the amended C3 at `a := x`, `b := y`, arguments `hi`, project
scope, over a tree holding `x/y.md` and an empty file system for the read. -/
theorem C3_roundtrip_amended_witness :
    ((hasMd c3wTree [OsName.valid ['x'], OsName.valid (['y'] ++ mdSuffix)] = true →
      (projectStr ++ ':' :: (['x'] ++ '_' :: '_' :: ['y'])) ∈
        gatherObj projectStr [] c3wTree) ∧
    expand_custom_command (mkInput projectStr (['x'] ++ '_' :: '_' :: ['y']) ['h', 'i'])
        ['/', 'r'] ⟨none⟩ (fun _ => none) =
      Option.map (substArgs ['h', 'i'])
        (readFile (fun _ => none) (pathJoin c3Root (['x'] ++ '/' :: (['y'] ++ mdSuffix))))) :=
  C3_roundtrip_amended ['x'] ['y'] ['h', 'i'] projectStr c3Root ['/', 'r'] ⟨none⟩
    (fun _ => none) c3wTree (Or.inl rfl) (by decide) (by decide) (by decide) (by decide)
    (by decide) (by decide) (by decide) (by decide) (by decide) (by decide) (by decide)
    (by decide) (by decide) (by decide) (by decide) (by decide)

end Codex
